import Mathlib

set_option autoImplicit false

/-!
Verification development for the VisualEditor data-model excerpt:
the MWLanguageVariantNode DOM (de)serialization statics
(src/modules/ve-mw/dm/nodes/ve.dm.MWLanguageVariantNode.js) and the
document-model Surface/Transaction core described by the specification
(the Surface implementation itself is outside the excerpted sources and
is modelled from the spec where noted).
-/

/-- JSON values, as produced by JSON.parse and consumed by JSON.stringify.
Numbers are modelled as integers; none of the verified code paths depend
on fractional numbers. -/
inductive JValue where
| null : JValue
| bool : Bool → JValue
| num : Int → JValue
| str : String → JValue
| arr : List JValue → JValue
| obj : List (String × JValue) → JValue

mutual

/-- Structural (order-sensitive) equality test on JSON values. -/
def beqJ : JValue → JValue → Bool
  | JValue.null, JValue.null => true
  | JValue.bool a, JValue.bool b => a == b
  | JValue.num a, JValue.num b => a == b
  | JValue.str a, JValue.str b => a == b
  | JValue.arr a, JValue.arr b => beqJList a b
  | JValue.obj a, JValue.obj b => beqJFields a b
  | _, _ => false

/-- Elementwise equality of JSON arrays. -/
def beqJList : List JValue → List JValue → Bool
  | [], [] => true
  | x :: xs, y :: ys => beqJ x y && beqJList xs ys
  | _, _ => false

/-- Elementwise equality of JSON object field lists. -/
def beqJFields : List (String × JValue) → List (String × JValue) → Bool
  | [], [] => true
  | (k, v) :: xs, (l, w) :: ys => k == l && beqJ v w && beqJFields xs ys
  | _, _ => false

end

/-- Insert one field into a field list sorted by key. -/
def insertFieldSorted (p : String × JValue) : List (String × JValue) → List (String × JValue)
  | [] => [p]
  | q :: qs => if p.1 ≤ q.1 then p :: q :: qs else q :: insertFieldSorted p qs

/-- Sort a JSON object field list by key (insertion sort). -/
def sortFields (fs : List (String × JValue)) : List (String × JValue) :=
  fs.foldr insertFieldSorted []

mutual

/-- Canonicalize a JSON value by recursively sorting object keys, so that
key-order-insensitive comparison can be done structurally. -/
def normalizeJ : JValue → JValue
  | JValue.arr xs => JValue.arr (normalizeJList xs)
  | JValue.obj fs => JValue.obj (sortFields (normalizeJFields fs))
  | v => v

/-- Canonicalize every element of a JSON array. -/
def normalizeJList : List JValue → List JValue
  | [] => []
  | x :: xs => normalizeJ x :: normalizeJList xs

/-- Canonicalize every value of a JSON object field list. -/
def normalizeJFields : List (String × JValue) → List (String × JValue)
  | [] => []
  | (k, v) :: fs => (k, normalizeJ v) :: normalizeJFields fs

end

/-- Deep structural comparison of JSON values ignoring object key order;
models OO.compare as used by toDomElements. -/
def ooCompare (a b : JValue) : Bool :=
  beqJ (normalizeJ a) (normalizeJ b)

/-- Escape one character for a JSON string literal. -/
def escapeJChar (c : Char) : String :=
  if c = '"' then "\\\"" else if c = '\\' then "\\\\" else String.singleton c

/-- Escape the contents of a JSON string literal. -/
def escapeJString (s : String) : String :=
  String.join (s.data.map escapeJChar)

/-- Render a JSON string literal with surrounding quotes. -/
def quoteJ (s : String) : String :=
  "\"" ++ escapeJString s ++ "\""

mutual

/-- Serialize a JSON value; models JSON.stringify (object fields in
stored order, no added whitespace). -/
def stringifyJ : JValue → String
  | JValue.null => "null"
  | JValue.bool true => "true"
  | JValue.bool false => "false"
  | JValue.num n => toString n
  | JValue.str s => quoteJ s
  | JValue.arr xs => "[" ++ stringifyJArr xs ++ "]"
  | JValue.obj fs => "\x7b" ++ stringifyJObj fs ++ "\x7d"

/-- Serialize the comma-separated elements of a JSON array. -/
def stringifyJArr : List JValue → String
  | [] => ""
  | [x] => stringifyJ x
  | x :: y :: xs => stringifyJ x ++ "," ++ stringifyJArr (y :: xs)

/-- Serialize the comma-separated fields of a JSON object. -/
def stringifyJObj : List (String × JValue) → String
  | [] => ""
  | [(k, v)] => quoteJ k ++ ":" ++ stringifyJ v
  | (k, v) :: q :: fs => quoteJ k ++ ":" ++ stringifyJ v ++ "," ++ stringifyJObj (q :: fs)

end

/-- Truthiness of a nullable JavaScript string: null/undefined and the
empty string are falsy. -/
def strTruthy : Option String → Bool
  | none => false
  | some s => !(s == "")

/-- A DOM element as consumed by toDataElement: its tagName plus the raw
value of its data-mw-variant attribute (getAttribute returns null when
the attribute is absent). -/
structure DomInput where
  tagName : String
  dataMwVariant : Option String
deriving DecidableEq

/-- A DOM element as produced by toDomElements: the created tag name, the
attributes set on it in order, and whether preview contents were filled
in (the clipboard branch touches only child content, never attributes). -/
structure DomOutput where
  tagName : String
  attrs : List (String × String)
  childrenFilled : Bool

/-- Look up an attribute on a produced DOM element. -/
def DomOutput.getAttribute (e : DomOutput) (key : String) : Option String :=
  (e.attrs.find? (fun p => p.1 == key)).map (fun p => p.2)

/-- ve.dm.MWLanguageVariantNode.static.name. -/
def mwLanguageVariantName : String := "mwLanguageVariant"

/-- ve.dm.MWLanguageVariantNode.static.matchRdfaTypes. -/
def matchRdfaTypes : List String := ["mw:LanguageVariant"]

/-- ve.dm.MWLanguageVariantNode.static.inlineType. -/
def inlineType : String := "mwLanguageVariantInline"

/-- ve.dm.MWLanguageVariantNode.static.blockType. -/
def blockType : String := "mwLanguageVariantBlock"

/-- ve.dm.MWLanguageVariantNode.static.hiddenType. -/
def hiddenType : String := "mwLanguageVariantHidden"

/-- The attributes object of a language-variant data element:
variantInfo is the parsed data-mw-variant JSON and originalVariantInfo
the raw attribute string (null when the attribute was absent). -/
structure LVAttributes where
  variantInfo : JValue
  originalVariantInfo : Option String

/-- A language-variant linear-model data element: its type plus its
attributes object. -/
structure LVDataElement where
  type : String
  attributes : LVAttributes

/-- ve.dm.MWLanguageVariantNode.static.toDataElement. The parse argument
stands for JSON.parse (none models a thrown exception on invalid JSON);
isHybridInline is the result of the converter inline check. The result is
none when execution would throw: an empty domElements array (reading
domElements[0]) or a JSON.parse failure. -/
def toDataElement (parse : String → Option JValue) (isHybridInline : Bool)
    (domElements : List DomInput) : Option LVDataElement :=
  match domElements with
  | [] => none
  | firstElement :: _ =>
    let dataMwvJSON := firstElement.dataMwVariant
    match (if strTruthy dataMwvJSON then dataMwvJSON.bind parse else some (JValue.obj [])) with
    | none => none
    | some dataMwv =>
      let attrs : LVAttributes :=
        { variantInfo := dataMwv, originalVariantInfo := dataMwvJSON }
      if firstElement.tagName == "META" then
        some { type := hiddenType, attributes := attrs }
      else
        some { type := if isHybridInline then inlineType else blockType, attributes := attrs }

/-- Build the single DOM element produced by toDomElements: createElement
with the class tag name, then setAttribute typeof and data-mw-variant in
that order; the clipboard branch fills in preview child contents when the
tag name is not META. -/
def mkVariantDomOutput (tagName rdfaType dataMwvJSON : String)
    (isForClipboard : Bool) : DomOutput :=
  { tagName := tagName
    attrs := [("typeof", rdfaType), ("data-mw-variant", dataMwvJSON)]
    childrenFilled := isForClipboard && !(tagName == "META") }

/-- ve.dm.MWLanguageVariantNode.static.toDomElements. matchTagNames is the
concrete subclass's static tag-name list (null on the abstract class is
modelled by the empty list, where indexing [0] would yield no tag); parse
stands for JSON.parse and isForClipboard for converter.isForClipboard().
When attributes.originalVariantInfo is truthy and reparses to a value
OO.compare-equal to variantInfo, the original string is emitted verbatim
for selser; otherwise JSON.stringify of variantInfo is used. The result is
none when execution would throw (no tag name, or JSON.parse failure). -/
def toDomElements (matchTagNames : List String) (parse : String → Option JValue)
    (dataElement : LVDataElement) (isForClipboard : Bool) : Option (List DomOutput) :=
  match matchTagNames.head?, matchRdfaTypes.head? with
  | some tagName, some rdfaType =>
    let variantInfo := dataElement.attributes.variantInfo
    let dataMwvJSON := stringifyJ variantInfo
    if strTruthy dataElement.attributes.originalVariantInfo then
      match dataElement.attributes.originalVariantInfo.bind parse with
      | none => none
      | some reparsed =>
        if ooCompare reparsed variantInfo then
          some [mkVariantDomOutput tagName rdfaType
            ((dataElement.attributes.originalVariantInfo).getD dataMwvJSON) isForClipboard]
        else
          some [mkVariantDomOutput tagName rdfaType dataMwvJSON isForClipboard]
    else
      some [mkVariantDomOutput tagName rdfaType dataMwvJSON isForClipboard]
  | _, _ => none

/-- One entry of the bidir/unidir rule arrays passed to matchLanguage:
an object with a field named l holding a language code. -/
structure VariantItem where
  l : String
deriving DecidableEq

/-- The pieces of mw.config state read by matchLanguage: wgUserVariant
(null when unset) and wgVisualEditor.pageVariantFallbacks (null or an
array of codes). -/
structure MWLangConfig where
  wgUserVariant : Option String
  pageVariantFallbacks : Option (List String)

/-- The candidate language codes in priority order: the user variant
first when truthy, then the configured fallbacks. -/
def languageCodes (cfg : MWLangConfig) : List String :=
  (match cfg.wgUserVariant with
   | some u => if u == "" then [] else [u]
   | none => []) ++ cfg.pageVariantFallbacks.getD []

/-- Lowercase a string character by character; models
String.prototype.toLowerCase as used by matchLanguage. -/
def lowerStr (s : String) : String :=
  String.mk (s.data.map Char.toLower)

/-- Test of the inner loop of matchLanguage: the item's l field is the
wildcard or case-insensitively equals the (already lowercased) code. -/
def matchesCode (code : String) (item : VariantItem) : Bool :=
  item.l == "*" || lowerStr item.l == code

/-- ve.dm.MWLanguageVariantNode.static.matchLanguage: scan the candidate
codes in priority order, and for the first code matched by some item
return the index of the first matching item; otherwise return 0. -/
def matchLanguage (cfg : MWLangConfig) (items : List VariantItem) : Nat :=
  match (languageCodes cfg).findSome? (fun lc => items.findIdx? (matchesCode (lowerStr lc))) with
  | some i => i
  | none => 0

/-- Modelled from the spec: an inline annotation — "a named formatting
rule (e.g. textStyle/bold) with a type field and optional parameters" —
the ve.dm document-model implementation is not among the excerpted
sources, only its tests. Parameters are modelled as string key/value
pairs. -/
structure Annot where
  type : String
  params : List (String × String)
deriving DecidableEq

/-- The JSON object of an annotation: its type field followed by its
parameters, as serialized for hashing. -/
def Annot.toJValue (a : Annot) : JValue :=
  JValue.obj (("type", JValue.str a.type) :: a.params.map (fun p => (p.1, JValue.str p.2)))

/-- Modelled from the spec: the canonical hash — "the JSON string of the
annotation's type and parameters object, used as the unique key in the
per-offset annotation mapping". -/
def Annot.hash (a : Annot) : String :=
  stringifyJ a.toJValue

/-- Modelled from the spec: one item of the Document's linear data — a
structural marker (an opening marker carries the element attributes used
by change-attributes operations) or a content unit, "a single character,
optionally paired with an annotation-set reference" stored as
character/annotation-set pairs keyed by canonical hash. -/
inductive LinItem where
| elemOpen : String → List (String × String) → LinItem
| elemClose : String → LinItem
| content : Char → List (String × Annot) → LinItem
deriving DecidableEq

/-- Modelled from the spec: the Document — an ordered linear sequence of
items, "constructed once from an initial raw sequence" and mutated only
through transaction application. -/
structure Document where
  data : List LinItem
deriving DecidableEq

/-- Document.getData: the full linear sequence as currently stored. -/
def Document.getData (d : Document) : List LinItem :=
  d.data

/-- Modelled from the spec: a Range — "a pair (from, to) of offsets into
the Document's linear sequence; may be collapsed to represent a caret".
The JS field names from/to are Lean keywords and are rendered start/stop. -/
structure Range where
  start : Nat
  stop : Nat
deriving DecidableEq

/-- The three event names a Surface emits. -/
inductive SurfaceEvent where
| transact : SurfaceEvent
| select : SurfaceEvent
| change : SurfaceEvent
deriving DecidableEq

/-- Modelled from the spec: the Surface — "holds a reference to its
Document, a current Range (selection, nullable initially)". -/
structure Surface where
  documentModel : Document
  selection : Option Range
deriving DecidableEq

/-- Construct a Surface over a Document, with no initial selection. -/
def Surface.create (doc : Document) : Surface :=
  { documentModel := doc, selection := none }

/-- Surface.getDocument: the owned Document instance. -/
def Surface.getDocument (s : Surface) : Document :=
  s.documentModel

/-- Surface.getSelection: the currently stored selection Range. -/
def Surface.getSelection (s : Surface) : Option Range :=
  s.selection

/-- Does the annotation set contain an entry with the given hash key? -/
def hasKeyA (h : String) (anns : List (String × Annot)) : Bool :=
  anns.any (fun p => p.1 == h)

/-- First stored annotation under the given hash key, if any. -/
def lookupAnn (h : String) : List (String × Annot) → Option Annot
  | [] => none
  | p :: ps => if p.1 = h then some p.2 else lookupAnn h ps

/-- Remove every entry with the given hash key. -/
def eraseAnn (h : String) (anns : List (String × Annot)) : List (String × Annot) :=
  anns.filter (fun p => !(p.1 == h))

/-- Insert an entry into an annotation set kept sorted by hash key. -/
def insertAnnSorted (h : String) (a : Annot) : List (String × Annot) → List (String × Annot)
  | [] => [(h, a)]
  | p :: ps => if h ≤ p.1 then (h, a) :: p :: ps else p :: insertAnnSorted h a ps

/-- Number of entries stored under the given hash key. -/
def countKey (h : String) (anns : List (String × Annot)) : Nat :=
  anns.countP (fun p => p.1 == h)

/-- Modelled from the spec: add an annotation to a content unit's set —
"no duplicate insertion if an equal annotation, by canonical hash, is
already present"; sets are keyed and sorted by canonical hash
(the interchange schema stores annotation sets by sorted hash key). -/
def addAnn (a : Annot) (anns : List (String × Annot)) : List (String × Annot) :=
  if hasKeyA (Annot.hash a) anns then anns else insertAnnSorted (Annot.hash a) a anns

/-- Modelled from the spec: one transaction operation — "a tagged variant
over retain N, insert items, remove items, change-annotations at range,
change-attributes at offset". change-annotations covers the next n items
with an add (true) or remove (false) of one annotation; change-attributes
rewrites one attribute of the opening marker at the cursor from the old
to the new value. -/
inductive Op where
| retain : Nat → Op
| insert : List LinItem → Op
| remove : List LinItem → Op
| changeAnnotations : Bool → Annot → Nat → Op
| changeAttributes : String → String → String → Op
deriving DecidableEq

/-- Modelled from the spec: a Transaction — "an ordered list of
operations; immutable once constructed". -/
structure Transaction where
  operations : List Op
deriving DecidableEq

/-- Per-item effect of a change-annotations operation. Adding requires
the annotation to be absent (by canonical hash) from a covered content
unit and removing requires exactly it to be present, so that the
operation is invertible; structural markers inside the covered range
pass through unchanged. -/
def annItem (add : Bool) (a : Annot) : LinItem → Option LinItem
  | LinItem.content c anns =>
    if add then
      if hasKeyA (Annot.hash a) anns then none
      else some (LinItem.content c (insertAnnSorted (Annot.hash a) a anns))
    else
      if lookupAnn (Annot.hash a) anns = some a then
        some (LinItem.content c (eraseAnn (Annot.hash a) anns))
      else none
  | it => some it

/-- Apply a change-annotations operation to the covered segment. -/
def annotateSeg (add : Bool) (a : Annot) : List LinItem → Option (List LinItem)
  | [] => some []
  | it :: its =>
    match annItem add a it, annotateSeg add a its with
    | some jt, some jts => some (jt :: jts)
    | _, _ => none

/-- First value stored under the given key in an element attribute list. -/
def attrLookup (k : String) : List (String × String) → Option String
  | [] => none
  | p :: ps => if p.1 = k then some p.2 else attrLookup k ps

/-- Rewrite the value stored under the given key in an element attribute
list, in place. -/
def attrSet (k v : String) (attrs : List (String × String)) : List (String × String) :=
  attrs.map (fun p => if p.1 = k then (k, v) else p)

/-- Modelled from the spec: apply a transaction's operations in order to
the linear data — "retain advances a cursor without change, insert
splices new items at the cursor, remove deletes items at the cursor,
change-annotations/change-attributes rewrite in place without altering
length". A remove must match the items actually present and a
change-annotations/change-attributes operation must find its expected
prior state, so that every successful application is invertible; none
models a malformed transaction. -/
def applyOps : List Op → List LinItem → Option (List LinItem)
  | [], items => some items
  | Op.retain n :: ops, items =>
    if n ≤ items.length then
      (applyOps ops (items.drop n)).map (fun r => items.take n ++ r)
    else none
  | Op.insert new :: ops, items =>
    (applyOps ops items).map (fun r => new ++ r)
  | Op.remove old :: ops, items =>
    if items.take old.length = old then applyOps ops (items.drop old.length)
    else none
  | Op.changeAnnotations add a n :: ops, items =>
    if n ≤ items.length then
      match annotateSeg add a (items.take n) with
      | none => none
      | some seg => (applyOps ops (items.drop n)).map (fun r => seg ++ r)
    else none
  | Op.changeAttributes k oldV newV :: ops, items =>
    match items with
    | LinItem.elemOpen tag attrs :: rest =>
      if attrLookup k attrs = some oldV then
        (applyOps ops rest).map (fun r => LinItem.elemOpen tag (attrSet k newV attrs) :: r)
      else none
    | _ => none

/-- Modelled from the spec: the inverse of one operation — "insert and
remove swapped, annotation add and remove swapped" (and the attribute
rewrite reversed). -/
def invertOp : Op → Op
  | Op.retain n => Op.retain n
  | Op.insert items => Op.remove items
  | Op.remove items => Op.insert items
  | Op.changeAnnotations add a n => Op.changeAnnotations (!add) a n
  | Op.changeAttributes k oldV newV => Op.changeAttributes k newV oldV

/-- The inverse transaction: every operation inverted, in order. -/
def Transaction.invert (t : Transaction) : Transaction :=
  ⟨t.operations.map invertOp⟩

/-- Apply a transaction to a Document. -/
def applyTx (t : Transaction) (d : Document) : Option Document :=
  (applyOps t.operations d.data).map Document.mk

/-- Modelled from the spec: Surface.change — if the transaction is
non-null, apply it to the owned Document and emit transact exactly once;
if the range is provided, replace the stored selection and emit select
exactly once; if either occurred, emit change exactly once after both;
if neither is supplied, no events fire. Transaction application is
unvalidated in the source ("silent structural trust"); a malformed
transaction is modelled as leaving the document unchanged. -/
def Surface.change (s : Surface) (tx : Option Transaction) (range : Option Range) :
    Surface × List SurfaceEvent :=
  match tx, range with
  | none, none => (s, [])
  | some t, none =>
    ({ s with documentModel := (applyTx t s.documentModel).getD s.documentModel },
     [SurfaceEvent.transact, SurfaceEvent.change])
  | none, some r =>
    ({ s with selection := some r },
     [SurfaceEvent.select, SurfaceEvent.change])
  | some t, some r =>
    ({ s with documentModel := (applyTx t s.documentModel).getD s.documentModel,
              selection := some r },
     [SurfaceEvent.transact, SurfaceEvent.select, SurfaceEvent.change])

/-- Set the annotation on one covered content unit (structural markers
are unaffected by annotate). -/
def annotateItemSet (a : Annot) : LinItem → LinItem
  | LinItem.content c anns => LinItem.content c (addAnn a anns)
  | it => it

/-- Walk the linear data with the running offset i, setting the
annotation on every content unit whose offset lies in [start, stop). -/
def annotateFrom (a : Annot) (start stop i : Nat) : List LinItem → List LinItem
  | [] => []
  | it :: its =>
    (if start ≤ i ∧ i < stop then annotateItemSet a it else it) ::
      annotateFrom a start stop (i + 1) its

/-- Modelled from the spec: Surface.annotate — "reads the current
selection Range, constructs the corresponding annotation transaction
internally, and routes it through the same change path"; for the method
"set", every content unit covered by the selection gains the annotation
with no duplicate insertion. Behavior with no selection is unspecified
in the spec and modelled as leaving the Surface unchanged; the other
methods (clear, clearAll, toggle) are not exercised by any claim and are
modelled as the identity. -/
def Surface.annotate (s : Surface) (method : String) (a : Annot) : Surface :=
  match s.selection with
  | none => s
  | some r =>
    if method = "set" then
      { s with documentModel := ⟨annotateFrom a r.start r.stop 0 s.documentModel.data⟩ }
    else s

/-- Well-formedness of one linear item: an opening marker has no
duplicate attribute keys (JS object attributes cannot collide) and a
content unit's annotation set is strictly sorted by hash key (the
interchange schema stores annotation sets by sorted hash key, so keys
are unique). -/
def itemWF : LinItem → Prop
  | LinItem.elemOpen _ attrs => (attrs.map Prod.fst).Nodup
  | LinItem.elemClose _ => True
  | LinItem.content _ anns => anns.Pairwise (fun p q => p.1 < q.1)

/-- Well-formedness of linear data: every item is well formed. -/
def dataWF (items : List LinItem) : Prop :=
  ∀ it ∈ items, itemWF it

/-- The annotation exercised by the annotate test: textStyle/bold with no
parameters. -/
def boldAnnot : Annot := ⟨"textStyle/bold", []⟩

/-- The test document data: the four characters b, o, l, d, unannotated. -/
def boldData : List LinItem :=
  [LinItem.content 'b' [], LinItem.content 'o' [], LinItem.content 'l' [],
   LinItem.content 'd' []]

/-- The surface of the annotate test as freshly constructed. -/
def boldSurface0 : Surface := Surface.create ⟨boldData⟩

/-- The surface after selecting the full document range. -/
def boldSurface1 : Surface :=
  (boldSurface0.change none (some ⟨0, (boldSurface0.getDocument.getData).length⟩)).1

/-- The surface after setting the bold annotation over the selection. -/
def boldSurface2 : Surface := boldSurface1.annotate "set" boldAnnot

/-- C1: event counting law for Surface.change — change(tx, undefined)
increments transact and change by 1 and leaves select unchanged;
change(null, range) increments select and change by 1 and leaves transact
unchanged; change(tx, range) increments all three; counts are strictly
additive across calls, so the three calls change(tx), change(null, r1),
change(tx2, r2) emit totals transact 2, select 2, change 3. -/
theorem surface_change_event_counting (s : Surface) (t t2 : Transaction) (r r1 r2 : Range) :
    ((s.change (some t) none).2.count SurfaceEvent.transact = 1 ∧
     (s.change (some t) none).2.count SurfaceEvent.select = 0 ∧
     (s.change (some t) none).2.count SurfaceEvent.change = 1) ∧
    ((s.change none (some r)).2.count SurfaceEvent.transact = 0 ∧
     (s.change none (some r)).2.count SurfaceEvent.select = 1 ∧
     (s.change none (some r)).2.count SurfaceEvent.change = 1) ∧
    ((s.change (some t) (some r)).2.count SurfaceEvent.transact = 1 ∧
     (s.change (some t) (some r)).2.count SurfaceEvent.select = 1 ∧
     (s.change (some t) (some r)).2.count SurfaceEvent.change = 1) ∧
    (((s.change (some t) none).2 ++
      ((s.change (some t) none).1.change none (some r1)).2 ++
      (((s.change (some t) none).1.change none (some r1)).1.change (some t2) (some r2)).2).count
        SurfaceEvent.transact = 2 ∧
     ((s.change (some t) none).2 ++
      ((s.change (some t) none).1.change none (some r1)).2 ++
      (((s.change (some t) none).1.change none (some r1)).1.change (some t2) (some r2)).2).count
        SurfaceEvent.select = 2 ∧
     ((s.change (some t) none).2 ++
      ((s.change (some t) none).1.change none (some r1)).2 ++
      (((s.change (some t) none).1.change none (some r1)).1.change (some t2) (some r2)).2).count
        SurfaceEvent.change = 3) :=
  ⟨⟨rfl, rfl, rfl⟩, ⟨rfl, rfl, rfl⟩, ⟨rfl, rfl, rfl⟩, ⟨rfl, rfl, rfl⟩⟩

/-- C3: event ordering law — within one change(tx, range) call with both
a transaction and a range supplied, the emitted events are exactly
transact, then select, then change. -/
theorem surface_change_event_order (s : Surface) (t : Transaction) (r : Range) :
    (s.change (some t) (some r)).2 =
      [SurfaceEvent.transact, SurfaceEvent.select, SurfaceEvent.change] :=
  rfl

/-- C5: identity stability of the Surface accessors — getDocument on a
freshly constructed Surface is the Document given at construction, and
on any Surface getDocument and getSelection return exactly the stored
Document and selection fields (never a copy or transformation). -/
theorem surface_accessor_identity (d : Document) (s : Surface) :
    (Surface.create d).getDocument = d ∧
    s.getDocument = s.documentModel ∧
    s.getSelection = s.selection :=
  ⟨rfl, rfl, rfl⟩

/-- C6: no-op change call — change with neither a transaction nor a range
emits no events and leaves the document data and the stored selection
unchanged. -/
theorem surface_change_noop (s : Surface) :
    s.change none none = (s, []) ∧
    (s.change none none).1.documentModel.getData = s.documentModel.getData ∧
    (s.change none none).1.selection = s.selection ∧
    (s.change none none).2 = [] :=
  ⟨rfl, rfl, rfl, rfl⟩

/-- C2: annotation round-trip scenario — over the document data
b, o, l, d, selecting the full range (0, 4) and setting the
textStyle/bold annotation yields exactly four character/annotation-set
pairs in original order, each set holding the single key equal to the
JSON string of the annotation object and mapping to the annotation
itself. -/
theorem annotate_bold_roundtrip :
    boldSurface2.getDocument.getData =
      [LinItem.content 'b' [("\x7b\"type\":\"textStyle/bold\"\x7d", boldAnnot)],
       LinItem.content 'o' [("\x7b\"type\":\"textStyle/bold\"\x7d", boldAnnot)],
       LinItem.content 'l' [("\x7b\"type\":\"textStyle/bold\"\x7d", boldAnnot)],
       LinItem.content 'd' [("\x7b\"type\":\"textStyle/bold\"\x7d", boldAnnot)]] ∧
    Annot.hash boldAnnot = "\x7b\"type\":\"textStyle/bold\"\x7d" :=
  ⟨rfl, rfl⟩

/-- Inserting under a key makes that key present. -/
theorem hasKeyA_insertAnnSorted (h : String) (a : Annot) (anns : List (String × Annot)) :
    hasKeyA h (insertAnnSorted h a anns) = true := by
  induction anns with
  | nil => simp [insertAnnSorted, hasKeyA]
  | cons p ps ih =>
    by_cases hle : h ≤ p.1
    · simp [insertAnnSorted, hle, hasKeyA]
    · simp [insertAnnSorted, hle, hasKeyA] at ih ⊢
      exact Or.inr ih

/-- After addAnn the annotation's hash key is present. -/
theorem hasKeyA_addAnn (a : Annot) (anns : List (String × Annot)) :
    hasKeyA (Annot.hash a) (addAnn a anns) = true := by
  unfold addAnn
  split
  · assumption
  · exact hasKeyA_insertAnnSorted _ _ _

/-- Adding the same annotation twice stores it once. -/
theorem addAnn_idem (a : Annot) (anns : List (String × Annot)) :
    addAnn a (addAnn a anns) = addAnn a anns := by
  conv_lhs => rw [addAnn]
  rw [hasKeyA_addAnn]
  simp

/-- Setting the same annotation twice on one item stores it once. -/
theorem annotateItemSet_idem (a : Annot) (it : LinItem) :
    annotateItemSet a (annotateItemSet a it) = annotateItemSet a it := by
  cases it <;> simp [annotateItemSet, addAnn_idem]

/-- Setting the same annotation twice over a range is the same as
setting it once. -/
theorem annotateFrom_idem (a : Annot) (start stop : Nat) (l : List LinItem) :
    ∀ i, annotateFrom a start stop i (annotateFrom a start stop i l) =
      annotateFrom a start stop i l := by
  induction l with
  | nil => intro i; rfl
  | cons it its ih =>
    intro i
    by_cases hc : start ≤ i ∧ i < stop
    · simp [annotateFrom, hc, annotateItemSet_idem, ih]
    · simp [annotateFrom, hc, ih]

/-- Item seen through annotateFrom at an index. -/
theorem annotateFrom_get? (a : Annot) (start stop : Nat) (l : List LinItem) :
    ∀ i j, (annotateFrom a start stop i l).get? j =
      (l.get? j).map (fun it => if start ≤ i + j ∧ i + j < stop then annotateItemSet a it else it) := by
  induction l with
  | nil => intro i j; rfl
  | cons it its ih =>
    intro i j
    cases j with
    | zero => simp [annotateFrom]
    | succ j =>
      simp only [annotateFrom, List.get?_cons_succ, ih (i + 1) j]
      have : i + 1 + j = i + (j + 1) := by omega
      rw [this]

/-- A strictly hash-sorted annotation set stores a key at most once. -/
theorem countKey_le_one_of_sorted (h : String) (anns : List (String × Annot))
    (hs : anns.Pairwise (fun p q => p.1 < q.1)) : countKey h anns ≤ 1 := by
  induction anns with
  | nil => simp [countKey]
  | cons p ps ih =>
    rw [List.pairwise_cons] at hs
    have ihps := ih hs.2
    simp only [countKey, List.countP_cons] at ihps ⊢
    by_cases hp : p.1 = h
    · have hzero : List.countP (fun q => q.1 == h) ps = 0 := by
        rw [List.countP_eq_zero]
        intro q hq hqh
        have hlt := hs.1 q hq
        rw [hp] at hlt
        rw [beq_iff_eq] at hqh
        rw [hqh] at hlt
        exact lt_irrefl _ hlt
      simp [hzero, hp]
    · have hbe : (p.1 == h) = false := beq_eq_false_iff_ne.mpr hp
      simpa [hbe] using ihps

/-- Inserting under an absent key raises its count from zero to one. -/
theorem countKey_insertAnnSorted (h : String) (a : Annot) (anns : List (String × Annot)) :
    countKey h (insertAnnSorted h a anns) = countKey h anns + 1 := by
  induction anns with
  | nil => simp [insertAnnSorted, countKey]
  | cons p ps ih =>
    by_cases hle : h ≤ p.1
    · simp [insertAnnSorted, hle, countKey, List.countP_cons]
    · simp only [insertAnnSorted, hle, if_false, countKey, List.countP_cons]
      simp only [countKey] at ih
      omega

/-- An absent key has count zero. -/
theorem countKey_eq_zero_of_not_hasKeyA (h : String) (anns : List (String × Annot))
    (hk : hasKeyA h anns = false) : countKey h anns = 0 := by
  rw [countKey, List.countP_eq_zero]
  intro q hq
  intro hqh
  have : anns.any (fun p => p.1 == h) = true := List.any_eq_true.mpr ⟨q, hq, hqh⟩
  rw [hasKeyA] at hk
  rw [hk] at this
  exact Bool.false_ne_true this

/-- A present key has positive count. -/
theorem countKey_pos_of_hasKeyA (h : String) (anns : List (String × Annot))
    (hk : hasKeyA h anns = true) : 1 ≤ countKey h anns := by
  rw [hasKeyA, List.any_eq_true] at hk
  obtain ⟨q, hq, hqh⟩ := hk
  rw [countKey]
  exact List.countP_pos_iff.mpr ⟨q, hq, hqh⟩

/-- On a strictly hash-sorted set, addAnn leaves exactly one entry under
the annotation's canonical hash. -/
theorem countKey_addAnn_of_sorted (a : Annot) (anns : List (String × Annot))
    (hs : anns.Pairwise (fun p q => p.1 < q.1)) :
    countKey (Annot.hash a) (addAnn a anns) = 1 := by
  unfold addAnn
  split
  · next hk =>
    have h1 := countKey_pos_of_hasKeyA _ _ hk
    have h2 := countKey_le_one_of_sorted (Annot.hash a) anns hs
    omega
  · next hk =>
    rw [countKey_insertAnnSorted]
    have : hasKeyA (Annot.hash a) anns = false := by
      cases hkk : hasKeyA (Annot.hash a) anns
      · rfl
      · exact absurd hkk hk
    rw [countKey_eq_zero_of_not_hasKeyA _ _ this]

/-- C4: annotation set idempotence — setting the same annotation twice
through annotate("set", a) yields the same stored state as setting it
once, and on a well-formed document every content offset covered by the
current selection ends up with exactly one stored entry keyed by the
annotation's canonical hash. -/
theorem annotate_set_idempotent (s : Surface) (a : Annot)
    (hwf : dataWF s.documentModel.data) :
    (s.annotate "set" a).annotate "set" a = s.annotate "set" a ∧
    (∀ r, s.selection = some r → ∀ i c anns,
      r.start ≤ i → i < r.stop →
      (s.annotate "set" a).documentModel.data.get? i = some (LinItem.content c anns) →
      countKey (Annot.hash a) anns = 1) := by
  constructor
  · cases hsel : s.selection with
    | none => simp [Surface.annotate, hsel]
    | some r => simp [Surface.annotate, hsel, annotateFrom_idem]
  · intro r hsel i c anns h1 h2 hget
    simp only [Surface.annotate, hsel, if_pos] at hget
    rw [annotateFrom_get?] at hget
    cases hd : s.documentModel.data.get? i with
    | none => rw [hd] at hget; simp at hget
    | some it0 =>
      rw [hd] at hget
      simp only [Option.map_some', Option.some_inj] at hget
      rw [if_pos (by simpa using And.intro h1 h2)] at hget
      cases it0 with
      | elemOpen tag attrs => simp [annotateItemSet] at hget
      | elemClose tag => simp [annotateItemSet] at hget
      | content c0 anns0 =>
        simp only [annotateItemSet, LinItem.content.injEq] at hget
        obtain ⟨hc, hanns⟩ := hget
        subst hanns
        have hmem : LinItem.content c0 anns0 ∈ s.documentModel.data := List.get?_mem hd
        have hsorted := hwf _ hmem
        exact countKey_addAnn_of_sorted a anns0 hsorted

/-- Witness for C4 at a concrete surface: one character, full selection,
the bold annotation set twice. -/
theorem annotate_set_idempotent_witness :
    ((Surface.mk ⟨[LinItem.content 'x' []]⟩ (some ⟨0, 1⟩)).annotate "set" boldAnnot).annotate
        "set" boldAnnot =
      (Surface.mk ⟨[LinItem.content 'x' []]⟩ (some ⟨0, 1⟩)).annotate "set" boldAnnot ∧
    countKey (Annot.hash boldAnnot) [(Annot.hash boldAnnot, boldAnnot)] = 1 := by
  have hwf : dataWF [LinItem.content 'x' []] := by
    intro it hit
    simp only [List.mem_singleton] at hit
    subst hit
    exact List.Pairwise.nil
  have h := annotate_set_idempotent (Surface.mk ⟨[LinItem.content 'x' []]⟩ (some ⟨0, 1⟩))
    boldAnnot hwf
  exact ⟨h.1, h.2 ⟨0, 1⟩ rfl 0 'x' [(Annot.hash boldAnnot, boldAnnot)]
    (by decide) (by decide) rfl⟩

/-- C8: selser attribute preservation in toDomElements — when
originalVariantInfo is a non-empty string reparsing to a value deep-equal
to variantInfo, the data-mw-variant attribute is exactly that original
string; when originalVariantInfo is absent, empty, or reparses to a
different value, the attribute is the JSON serialization of variantInfo;
and every successful result is a single element whose typeof attribute is
mw:LanguageVariant. -/
theorem toDomElements_selser (mtn : List String) (tn : String)
    (parse : String → Option JValue) (de : LVDataElement) (clip : Bool)
    (ht : mtn.head? = some tn) :
    (∀ s v, de.attributes.originalVariantInfo = some s → s ≠ "" → parse s = some v →
      ooCompare v de.attributes.variantInfo = true →
      toDomElements mtn parse de clip =
        some [mkVariantDomOutput tn "mw:LanguageVariant" s clip]) ∧
    (de.attributes.originalVariantInfo = none →
      toDomElements mtn parse de clip =
        some [mkVariantDomOutput tn "mw:LanguageVariant"
          (stringifyJ de.attributes.variantInfo) clip]) ∧
    (de.attributes.originalVariantInfo = some "" →
      toDomElements mtn parse de clip =
        some [mkVariantDomOutput tn "mw:LanguageVariant"
          (stringifyJ de.attributes.variantInfo) clip]) ∧
    (∀ s v, de.attributes.originalVariantInfo = some s → s ≠ "" → parse s = some v →
      ooCompare v de.attributes.variantInfo = false →
      toDomElements mtn parse de clip =
        some [mkVariantDomOutput tn "mw:LanguageVariant"
          (stringifyJ de.attributes.variantInfo) clip]) ∧
    (∀ es, toDomElements mtn parse de clip = some es →
      ∃ e, es = [e] ∧ e.getAttribute "typeof" = some "mw:LanguageVariant") := by
  refine ⟨?_, ?_, ?_, ?_, ?_⟩
  · intro s v hovi hs hp hcmp
    have hbe : (s == "") = false := beq_eq_false_iff_ne.mpr hs
    simp [toDomElements, ht, hovi, strTruthy, hbe, hp, hcmp, matchRdfaTypes]
  · intro hovi
    simp [toDomElements, ht, hovi, strTruthy, matchRdfaTypes]
  · intro hovi
    simp [toDomElements, ht, hovi, strTruthy, matchRdfaTypes]
  · intro s v hovi hs hp hcmp
    have hbe : (s == "") = false := beq_eq_false_iff_ne.mpr hs
    simp [toDomElements, ht, hovi, strTruthy, hbe, hp, hcmp, matchRdfaTypes]
  · intro es hes
    cases hovi : de.attributes.originalVariantInfo with
    | none =>
      simp [toDomElements, ht, hovi, strTruthy, matchRdfaTypes] at hes
      exact ⟨_, hes.symm, rfl⟩
    | some s =>
      by_cases hs : s = ""
      · subst hs
        simp [toDomElements, ht, hovi, strTruthy, matchRdfaTypes] at hes
        exact ⟨_, hes.symm, rfl⟩
      · have hbe : (s == "") = false := beq_eq_false_iff_ne.mpr hs
        cases hp : parse s with
        | none =>
          simp [toDomElements, ht, hovi, strTruthy, hbe, hp, matchRdfaTypes] at hes
        | some v =>
          cases hcmp : ooCompare v de.attributes.variantInfo with
          | false =>
            simp [toDomElements, ht, hovi, strTruthy, hbe, hp, hcmp, matchRdfaTypes] at hes
            exact ⟨_, hes.symm, rfl⟩
          | true =>
            simp [toDomElements, ht, hovi, strTruthy, hbe, hp, hcmp, matchRdfaTypes] at hes
            exact ⟨_, hes.symm, rfl⟩

/-- C9: toDataElement type discrimination and attribute extraction — the
produced type is the hidden type exactly when the first element's tagName
is META (otherwise the inline or block type per the converter's inline
check); variantInfo is the parsed data-mw-variant attribute when that
attribute is non-empty and the empty object when it is absent or empty;
originalVariantInfo holds the raw attribute string. -/
theorem toDataElement_spec (parse : String → Option JValue) (isInline : Bool)
    (first : DomInput) (rest : List DomInput) :
    (first.dataMwVariant = none →
      toDataElement parse isInline (first :: rest) =
        some ⟨if first.tagName = "META" then hiddenType
              else if isInline then inlineType else blockType,
              ⟨JValue.obj [], none⟩⟩) ∧
    (first.dataMwVariant = some "" →
      toDataElement parse isInline (first :: rest) =
        some ⟨if first.tagName = "META" then hiddenType
              else if isInline then inlineType else blockType,
              ⟨JValue.obj [], some ""⟩⟩) ∧
    (∀ s v, first.dataMwVariant = some s → s ≠ "" → parse s = some v →
      toDataElement parse isInline (first :: rest) =
        some ⟨if first.tagName = "META" then hiddenType
              else if isInline then inlineType else blockType,
              ⟨v, some s⟩⟩) ∧
    (∀ d, toDataElement parse isInline (first :: rest) = some d →
      (d.type = hiddenType ↔ first.tagName = "META")) := by
  refine ⟨?_, ?_, ?_, ?_⟩
  · intro hattr
    by_cases hm : first.tagName = "META"
    · simp [toDataElement, hattr, strTruthy, hm]
    · have hbm : (first.tagName == "META") = false := beq_eq_false_iff_ne.mpr hm
      simp [toDataElement, hattr, strTruthy, hm, hbm]
  · intro hattr
    by_cases hm : first.tagName = "META"
    · simp [toDataElement, hattr, strTruthy, hm]
    · have hbm : (first.tagName == "META") = false := beq_eq_false_iff_ne.mpr hm
      simp [toDataElement, hattr, strTruthy, hm, hbm]
  · intro s v hattr hs hp
    have hbe : (s == "") = false := beq_eq_false_iff_ne.mpr hs
    by_cases hm : first.tagName = "META"
    · simp [toDataElement, hattr, strTruthy, hbe, hp, hm]
    · have hbm : (first.tagName == "META") = false := beq_eq_false_iff_ne.mpr hm
      simp [toDataElement, hattr, strTruthy, hbe, hp, hm, hbm]
  · intro d hd
    simp only [toDataElement] at hd
    split at hd
    · exact absurd hd (by simp)
    · by_cases hm : first.tagName = "META"
      · have hbm : (first.tagName == "META") = true := beq_iff_eq.mpr hm
        rw [if_pos hbm] at hd
        simp only [Option.some_inj] at hd
        subst hd
        simp [hm]
      · have hbm : (first.tagName == "META") = false := beq_eq_false_iff_ne.mpr hm
        rw [if_neg (by simp [hbm])] at hd
        simp only [Option.some_inj] at hd
        subst hd
        cases isInline <;> simp [hm, inlineType, blockType, hiddenType]

/-- Witness for C8: a span subclass, originalVariantInfo a spaced
rendering of the empty object that reparses equal to variantInfo, so the
original string is preserved verbatim. -/
theorem toDomElements_selser_witness :
    toDomElements ["span"] (fun _ => some (JValue.obj []))
        ⟨inlineType, ⟨JValue.obj [], some "\x7b \x7d"⟩⟩ true =
      some [mkVariantDomOutput "span" "mw:LanguageVariant" "\x7b \x7d" true] :=
  (toDomElements_selser ["span"] "span" (fun _ => some (JValue.obj []))
    ⟨inlineType, ⟨JValue.obj [], some "\x7b \x7d"⟩⟩ true rfl).1 "\x7b \x7d"
    (JValue.obj []) rfl (by decide) rfl rfl

/-- Witness for C9: a meta element with a non-empty attribute parsing to
the number 1 yields the hidden type with the parsed variantInfo and the
raw original string. -/
theorem toDataElement_spec_witness :
    toDataElement (fun _ => some (JValue.num 1)) false [⟨"META", some "1"⟩] =
      some ⟨hiddenType, ⟨JValue.num 1, some "1"⟩⟩ := by
  have h := (toDataElement_spec (fun _ => some (JValue.num 1)) false ⟨"META", some "1"⟩
    []).2.2.1 "1" (JValue.num 1) rfl (by decide) rfl
  simpa using h

/-- Characterization of a successful findIdx? scan started at base i:
the found index is i plus the offset of the first satisfying element. -/
theorem findIdx?_some_char {α : Type} (p : α → Bool) :
    ∀ (l : List α) (i j : Nat), List.findIdx? p l i = some j →
      ∃ k, j = i + k ∧ (∃ a, l.get? k = some a ∧ p a = true) ∧
        ∀ m, m < k → ∀ b, l.get? m = some b → p b = false := by
  intro l
  induction l with
  | nil => intro i j h; simp [List.findIdx?_nil] at h
  | cons x xs ih =>
    intro i j h
    rw [List.findIdx?_cons] at h
    by_cases hp : p x = true
    · rw [if_pos hp] at h
      simp only [Option.some_inj] at h
      refine ⟨0, by omega, ⟨x, rfl, hp⟩, ?_⟩
      intro m hm
      omega
    · rw [if_neg hp] at h
      obtain ⟨k, hk, ⟨a, ha, hpa⟩, hmin⟩ := ih (i + 1) j h
      refine ⟨k + 1, by omega, ⟨a, by simpa using ha, hpa⟩, ?_⟩
      intro m hm b hb
      cases m with
      | zero =>
        simp only [List.get?_cons_zero, Option.some_inj] at hb
        subst hb
        exact Bool.eq_false_iff.mpr hp
      | succ m =>
        rw [List.get?_cons_succ] at hb
        exact hmin m (by omega) b hb

/-- A failed findIdx? scan means no element satisfies the test. -/
theorem findIdx?_none_char {α : Type} (p : α → Bool) :
    ∀ (l : List α) (i : Nat), List.findIdx? p l i = none →
      ∀ a ∈ l, p a = false := by
  intro l
  induction l with
  | nil => intro i h a ha; exact absurd ha (List.not_mem_nil a)
  | cons x xs ih =>
    intro i h a ha
    rw [List.findIdx?_cons] at h
    by_cases hp : p x = true
    · rw [if_pos hp] at h
      exact absurd h (by simp)
    · rw [if_neg hp] at h
      rcases List.mem_cons.mp ha with rfl | hmem
      · exact Bool.eq_false_iff.mpr hp
      · exact ih (i + 1) h a hmem

/-- Characterization of a successful findSome? scan: some element maps
to the result and all earlier elements map to none. -/
theorem findSome?_some_char {α β : Type} (f : α → Option β) :
    ∀ (l : List α) (b : β), List.findSome? f l = some b →
      ∃ j a, l.get? j = some a ∧ f a = some b ∧
        ∀ m, m < j → ∀ c, l.get? m = some c → f c = none := by
  intro l
  induction l with
  | nil => intro b h; simp at h
  | cons x xs ih =>
    intro b h
    rw [List.findSome?_cons] at h
    cases hfx : f x with
    | some y =>
      rw [hfx] at h
      simp only [Option.some_inj] at h
      subst h
      refine ⟨0, x, rfl, hfx, ?_⟩
      intro m hm
      omega
    | none =>
      rw [hfx] at h
      obtain ⟨j, a, ha, hfa, hmin⟩ := ih b h
      refine ⟨j + 1, a, by simpa using ha, hfa, ?_⟩
      intro m hm c hc
      cases m with
      | zero =>
        simp only [List.get?_cons_zero, Option.some_inj] at hc
        subst hc
        exact hfx
      | succ m =>
        rw [List.get?_cons_succ] at hc
        exact hmin m (by omega) c hc

/-- A failed findSome? scan means every element maps to none. -/
theorem findSome?_none_char {α β : Type} (f : α → Option β) :
    ∀ (l : List α), List.findSome? f l = none → ∀ a ∈ l, f a = none := by
  intro l
  induction l with
  | nil => intro h a ha; exact absurd ha (List.not_mem_nil a)
  | cons x xs ih =>
    intro h a ha
    rw [List.findSome?_cons] at h
    cases hfx : f x with
    | some y => rw [hfx] at h; exact absurd h (by simp)
    | none =>
      rw [hfx] at h
      rcases List.mem_cons.mp ha with rfl | hmem
      · exact hfx
      · exact ih h a hmem

/-- C10: matchLanguage bounds and priority — on a non-empty item array
the result is a valid index; it is the index of the first item matching
(by wildcard or case-insensitive equality) the highest-priority candidate
code matched by any item, the candidate codes being the user variant
followed by the configured fallbacks; and it is 0 when no candidate code
matches any item. -/
theorem matchLanguage_spec (cfg : MWLangConfig) (items : List VariantItem)
    (hne : items ≠ []) :
    matchLanguage cfg items < items.length ∧
    ((∃ j c, (languageCodes cfg).get? j = some c ∧
        (∀ m, m < j → ∀ c2, (languageCodes cfg).get? m = some c2 →
          ∀ it ∈ items, matchesCode (lowerStr c2) it = false) ∧
        (∃ it, items.get? (matchLanguage cfg items) = some it ∧
          matchesCode (lowerStr c) it = true) ∧
        (∀ m, m < matchLanguage cfg items → ∀ it2, items.get? m = some it2 →
          matchesCode (lowerStr c) it2 = false)) ∨
      ((∀ c ∈ languageCodes cfg, ∀ it ∈ items, matchesCode (lowerStr c) it = false) ∧
        matchLanguage cfg items = 0)) := by
  cases hfs : (languageCodes cfg).findSome?
      (fun lc => items.findIdx? (matchesCode (lowerStr lc))) with
  | none =>
    have hresult : matchLanguage cfg items = 0 := by
      rw [matchLanguage, hfs]
    have hnone := findSome?_none_char _ _ hfs
    constructor
    · rw [hresult]
      exact List.length_pos.mpr hne
    · refine Or.inr ⟨?_, hresult⟩
      intro c hc it hit
      exact findIdx?_none_char _ items 0 (hnone c hc) it hit
  | some i =>
    have hresult : matchLanguage cfg items = i := by
      rw [matchLanguage, hfs]
    obtain ⟨j, c, hjc, hfc, hearlier⟩ := findSome?_some_char _ _ i hfs
    obtain ⟨k, hk, ⟨it, hit, hmatch⟩, hmin⟩ := findIdx?_some_char _ items 0 i hfc
    have hki : i = k := by omega
    subst hki
    have hbound : i < items.length := by
      by_contra hge
      rw [List.get?_eq_none.mpr (by omega)] at hit
      exact absurd hit (by simp)
    constructor
    · rw [hresult]
      exact hbound
    · refine Or.inl ⟨j, c, hjc, ?_, ?_, ?_⟩
      · intro m hm c2 hc2 it2 hit2
        exact findIdx?_none_char _ items 0 (hearlier m hm c2 hc2) it2 hit2
      · rw [hresult]
        exact ⟨it, hit, hmatch⟩
      · rw [hresult]
        intro m hm it2 hit2
        exact hmin m hm it2 hit2

/-- Witness for C10: user variant EN (uppercase) with no fallbacks over
the items fr, en selects index 1, within bounds. -/
theorem matchLanguage_spec_witness :
    matchLanguage ⟨some "EN", none⟩ [⟨"fr"⟩, ⟨"en"⟩] < 2 ∧
    matchLanguage ⟨some "EN", none⟩ [⟨"fr"⟩, ⟨"en"⟩] = 1 :=
  ⟨(matchLanguage_spec ⟨some "EN", none⟩ [⟨"fr"⟩, ⟨"en"⟩] (by decide)).1, by decide⟩

/-- Erasing an absent key leaves the set unchanged. -/
theorem eraseAnn_eq_self (h : String) (anns : List (String × Annot))
    (hk : hasKeyA h anns = false) : eraseAnn h anns = anns := by
  induction anns with
  | nil => rfl
  | cons p ps ih =>
    simp only [hasKeyA, List.any_cons, Bool.or_eq_false_iff] at hk
    have h2 : hasKeyA h ps = false := hk.2
    simp only [eraseAnn, List.filter_cons, hk.1, Bool.not_false, if_true]
    have h3 := ih h2
    simp only [eraseAnn] at h3
    rw [h3]

/-- After erasing a key it is no longer present. -/
theorem hasKeyA_eraseAnn (h : String) (anns : List (String × Annot)) :
    hasKeyA h (eraseAnn h anns) = false := by
  induction anns with
  | nil => rfl
  | cons p ps ih =>
    cases hp : (p.1 == h) with
    | true =>
      simp only [eraseAnn, List.filter_cons, hp, Bool.not_true, if_false]
      simp only [eraseAnn] at ih
      exact ih
    | false =>
      simp only [eraseAnn, List.filter_cons, hp, Bool.not_false, if_true, hasKeyA,
        List.any_cons, hp, Bool.false_or]
      simp only [eraseAnn, hasKeyA] at ih
      exact ih

/-- Looking up the key just inserted finds the inserted annotation. -/
theorem lookupAnn_insertAnnSorted (h : String) (a : Annot) (anns : List (String × Annot)) :
    lookupAnn h (insertAnnSorted h a anns) = some a := by
  induction anns with
  | nil => simp [insertAnnSorted, lookupAnn]
  | cons p ps ih =>
    by_cases hle : h ≤ p.1
    · simp [insertAnnSorted, hle, lookupAnn]
    · have hne : p.1 ≠ h := by
        intro he
        exact hle (le_of_eq he.symm)
      simp only [insertAnnSorted, hle, if_false, lookupAnn, hne]
      exact ih

/-- Erasing the key just inserted into a set that lacked it restores the
set. -/
theorem eraseAnn_insertAnnSorted (h : String) (a : Annot) (anns : List (String × Annot))
    (hk : hasKeyA h anns = false) :
    eraseAnn h (insertAnnSorted h a anns) = anns := by
  induction anns with
  | nil => simp [insertAnnSorted, eraseAnn]
  | cons p ps ih =>
    simp only [hasKeyA, List.any_cons, Bool.or_eq_false_iff] at hk
    by_cases hle : h ≤ p.1
    · simp only [insertAnnSorted, hle, if_true, eraseAnn, List.filter_cons, beq_self_eq_true,
        Bool.not_true, if_false, hk.1, Bool.not_false, if_true]
      have h3 := eraseAnn_eq_self h ps hk.2
      simp only [eraseAnn] at h3
      rw [h3]
      simp
    · simp only [insertAnnSorted, hle, if_false, eraseAnn, List.filter_cons, hk.1,
        Bool.not_false, if_true]
      have h3 := ih hk.2
      simp only [eraseAnn] at h3
      rw [h3]

/-- A successful lookup exhibits a stored entry. -/
theorem lookupAnn_some_mem (h : String) (a : Annot) :
    ∀ anns : List (String × Annot), lookupAnn h anns = some a → (h, a) ∈ anns := by
  intro anns
  induction anns with
  | nil => intro hl; simp [lookupAnn] at hl
  | cons p ps ih =>
    intro hl
    by_cases hp : p.1 = h
    · rw [lookupAnn, if_pos hp] at hl
      simp only [Option.some_inj] at hl
      subst hl
      have hpe : (h, p.2) = p := Prod.ext hp.symm rfl
      rw [hpe]
      exact List.mem_cons_self p ps
    · rw [lookupAnn, if_neg hp] at hl
      exact List.mem_cons_of_mem p (ih hl)

/-- Reinserting the annotation found under a key into the strictly
hash-sorted set with that key erased restores the set. -/
theorem insertAnnSorted_eraseAnn (h : String) (a : Annot) :
    ∀ anns : List (String × Annot), anns.Pairwise (fun p q => p.1 < q.1) →
      lookupAnn h anns = some a →
      insertAnnSorted h a (eraseAnn h anns) = anns := by
  intro anns
  induction anns with
  | nil => intro hs hl; simp [lookupAnn] at hl
  | cons p ps ih =>
    intro hs hl
    rw [List.pairwise_cons] at hs
    by_cases hp : p.1 = h
    · rw [lookupAnn, if_pos hp] at hl
      simp only [Option.some_inj] at hl
      have hkps : hasKeyA h ps = false := by
        rw [hasKeyA]
        rw [List.any_eq_false]
        intro q hq
        have := hs.1 q hq
        rw [hp] at this
        simp only [beq_iff_eq]
        intro hqh
        rw [hqh] at this
        exact lt_irrefl _ this
      have hbp : (p.1 == h) = true := beq_iff_eq.mpr hp
      simp only [eraseAnn, List.filter_cons, hbp, Bool.not_true, if_false]
      have h3 := eraseAnn_eq_self h ps hkps
      simp only [eraseAnn] at h3
      rw [h3]
      cases hps : ps with
      | nil =>
        simp only [insertAnnSorted]
        rw [← hp, ← hl]
      | cons q qs =>
        have hlt : h ≤ q.1 := by
          have := hs.1 q (by rw [hps]; exact List.mem_cons_self q qs)
          rw [hp] at this
          exact le_of_lt this
        simp only [insertAnnSorted, hlt, if_true]
        rw [← hp, ← hl]
    · rw [lookupAnn, if_neg hp] at hl
      have hbp : (p.1 == h) = false := beq_eq_false_iff_ne.mpr hp
      simp only [eraseAnn, List.filter_cons, hbp, Bool.not_false, if_true]
      have hmem := lookupAnn_some_mem h a ps hl
      have hplt : p.1 < h := by
        have := hs.1 (h, a) hmem
        exact this
      have hnle : ¬h ≤ p.1 := not_le.mpr hplt
      simp only [insertAnnSorted, hnle, if_false]
      have h3 := ih hs.2 hl
      simp only [eraseAnn] at h3
      rw [h3]

/-- Applying the inverse annotation operation to one transformed item
restores the original item. -/
theorem annItem_invert (add : Bool) (a : Annot) (it it2 : LinItem)
    (hwf : itemWF it) (h : annItem add a it = some it2) :
    annItem (!add) a it2 = some it := by
  cases it with
  | elemOpen tag attrs =>
    simp only [annItem, Option.some_inj] at h
    subst h
    simp [annItem]
  | elemClose tag =>
    simp only [annItem, Option.some_inj] at h
    subst h
    simp [annItem]
  | content c anns =>
    cases add with
    | true =>
      simp only [annItem] at h
      rw [if_pos trivial] at h
      split at h
      · exact absurd h (by simp)
      · next hk =>
        simp only [Option.some_inj] at h
        subst h
        have hkf : hasKeyA (Annot.hash a) anns = false := by
          cases hkk : hasKeyA (Annot.hash a) anns
          · rfl
          · exact absurd hkk hk
        simp only [Bool.not_true, annItem]
        rw [if_neg (by simp)]
        rw [if_pos (lookupAnn_insertAnnSorted _ _ _)]
        rw [eraseAnn_insertAnnSorted _ _ _ hkf]
    | false =>
      simp only [annItem] at h
      rw [if_neg (by simp)] at h
      split at h
      · next hlk =>
        simp only [Option.some_inj] at h
        subst h
        simp only [Bool.not_false, annItem]
        rw [if_pos trivial]
        rw [if_neg (by simp [hasKeyA_eraseAnn])]
        rw [insertAnnSorted_eraseAnn _ _ _ hwf hlk]
      · exact absurd h (by simp)

/-- Applying the inverse annotation operation to a transformed segment
restores the original segment. -/
theorem annotateSeg_invert (add : Bool) (a : Annot) :
    ∀ (l l2 : List LinItem), (∀ it ∈ l, itemWF it) →
      annotateSeg add a l = some l2 → annotateSeg (!add) a l2 = some l := by
  intro l
  induction l with
  | nil =>
    intro l2 hwf h
    simp only [annotateSeg, Option.some_inj] at h
    subst h
    rfl
  | cons it its ih =>
    intro l2 hwf h
    simp only [annotateSeg] at h
    cases hit : annItem add a it with
    | none => rw [hit] at h; exact absurd h (by simp)
    | some jt =>
      cases hits : annotateSeg add a its with
      | none => rw [hit, hits] at h; exact absurd h (by simp)
      | some jts =>
        rw [hit, hits] at h
        simp only [Option.some_inj] at h
        subst h
        have h1 := annItem_invert add a it jt (hwf it (List.mem_cons_self it its)) hit
        have h2 := ih jts (fun x hx => hwf x (List.mem_cons_of_mem it hx)) hits
        simp only [annotateSeg, h1, h2]

/-- Annotating a segment preserves its length. -/
theorem annotateSeg_length (add : Bool) (a : Annot) :
    ∀ (l l2 : List LinItem), annotateSeg add a l = some l2 → l2.length = l.length := by
  intro l
  induction l with
  | nil =>
    intro l2 h
    simp only [annotateSeg, Option.some_inj] at h
    subst h
    rfl
  | cons it its ih =>
    intro l2 h
    simp only [annotateSeg] at h
    cases hit : annItem add a it with
    | none => rw [hit] at h; exact absurd h (by simp)
    | some jt =>
      cases hits : annotateSeg add a its with
      | none => rw [hit, hits] at h; exact absurd h (by simp)
      | some jts =>
        rw [hit, hits] at h
        simp only [Option.some_inj] at h
        subst h
        simp [ih jts hits]

/-- Rewriting a present attribute key makes the new value the stored
value. -/
theorem attrLookup_attrSet (k v w : String) :
    ∀ attrs : List (String × String), attrLookup k attrs = some v →
      attrLookup k (attrSet k w attrs) = some w := by
  intro attrs
  induction attrs with
  | nil => intro h; simp [attrLookup] at h
  | cons p ps ih =>
    intro h
    by_cases hp : p.1 = k
    · simp [attrSet, attrLookup, hp]
    · rw [attrLookup, if_neg hp] at h
      simp only [attrSet, List.map_cons, if_neg hp]
      rw [attrLookup, if_neg hp]
      exact ih h

/-- Rewriting an absent attribute key changes nothing. -/
theorem attrSet_eq_self (k v : String) :
    ∀ attrs : List (String × String), (∀ q ∈ attrs, q.1 ≠ k) →
      attrSet k v attrs = attrs := by
  intro attrs
  induction attrs with
  | nil => intro hn; rfl
  | cons p ps ih =>
    intro hn
    simp only [attrSet, List.map_cons, if_neg (hn p (List.mem_cons_self p ps))]
    have h3 := ih (fun q hq => hn q (List.mem_cons_of_mem p hq))
    simp only [attrSet] at h3
    rw [h3]

/-- On duplicate-free attribute keys, rewriting a key to a new value and
back to the looked-up old value restores the attribute list. -/
theorem attrSet_attrSet_cancel (k oldV newV : String) :
    ∀ attrs : List (String × String), (attrs.map Prod.fst).Nodup →
      attrLookup k attrs = some oldV →
      attrSet k oldV (attrSet k newV attrs) = attrs := by
  intro attrs
  induction attrs with
  | nil => intro hnd h; simp [attrLookup] at h
  | cons p ps ih =>
    intro hnd h
    simp only [List.map_cons, List.nodup_cons] at hnd
    by_cases hp : p.1 = k
    · rw [attrLookup, if_pos hp] at h
      simp only [Option.some_inj] at h
      simp only [attrSet, List.map_cons, if_pos hp, if_pos rfl]
      have hnone : ∀ q ∈ ps, q.1 ≠ k := by
        intro q hq hqk
        apply hnd.1
        have hmm : q.1 ∈ List.map Prod.fst ps := List.mem_map_of_mem Prod.fst hq
        rw [hqk] at hmm
        rw [hp]
        exact hmm
      have hset1 := attrSet_eq_self k newV ps hnone
      simp only [attrSet] at hset1
      rw [hset1]
      have hset2 := attrSet_eq_self k oldV ps hnone
      simp only [attrSet] at hset2
      rw [hset2]
      have hpe : (k, oldV) = p := Prod.ext hp.symm h.symm
      rw [hpe]
      simp
    · rw [attrLookup, if_neg hp] at h
      simp only [attrSet, List.map_cons, if_neg hp]
      have h3 := ih hnd.2 h
      simp only [attrSet] at h3
      rw [h3]

/-- Well-formedness restricts to any dropped suffix. -/
theorem dataWF_drop (items : List LinItem) (n : Nat) (hwf : dataWF items) :
    dataWF (items.drop n) :=
  fun it hit => hwf it (List.drop_subset n items hit)

/-- Well-formedness restricts to any taken segment. -/
theorem dataWF_take (items : List LinItem) (n : Nat) (hwf : dataWF items) :
    dataWF (items.take n) :=
  fun it hit => hwf it (List.take_subset n items hit)

/-- Applying the inverted operation list to the output of a successful
application restores the input data. -/
theorem applyOps_invert :
    ∀ (ops : List Op) (items items2 : List LinItem),
      dataWF items → applyOps ops items = some items2 →
      applyOps (ops.map invertOp) items2 = some items := by
  intro ops
  induction ops with
  | nil =>
    intro items items2 hwf h
    simp only [applyOps, Option.some_inj] at h
    subst h
    rfl
  | cons op ops ih =>
    intro items items2 hwf h
    cases op with
    | retain n =>
      simp only [applyOps] at h
      split at h
      · next hle =>
        cases hrec : applyOps ops (items.drop n) with
        | none => rw [hrec] at h; exact absurd h (by simp)
        | some r =>
          rw [hrec] at h
          simp only [Option.map_some', Option.some_inj] at h
          subst h
          have ih2 := ih (items.drop n) r (dataWF_drop items n hwf) hrec
          have hlen : (items.take n).length = n := by
            rw [List.length_take]
            omega
          simp only [List.map_cons, invertOp, applyOps]
          rw [if_pos (by rw [List.length_append, hlen]; omega)]
          have hdrop : (items.take n ++ r).drop n = r := by
            have hd := List.drop_left (items.take n) r
            rwa [hlen] at hd
          have htake : (items.take n ++ r).take n = items.take n := by
            have ht := List.take_left (items.take n) r
            rwa [hlen] at ht
          rw [hdrop, htake, ih2]
          simp [List.take_append_drop]
      · exact absurd h (by simp)
    | insert new =>
      simp only [applyOps] at h
      cases hrec : applyOps ops items with
      | none => rw [hrec] at h; exact absurd h (by simp)
      | some r =>
        rw [hrec] at h
        simp only [Option.map_some', Option.some_inj] at h
        subst h
        have ih2 := ih items r hwf hrec
        simp only [List.map_cons, invertOp, applyOps]
        rw [if_pos (List.take_left new r)]
        rw [List.drop_left]
        exact ih2
    | remove old =>
      simp only [applyOps] at h
      split at h
      · next htake =>
        have ih2 := ih (items.drop old.length) items2 (dataWF_drop items old.length hwf) h
        simp only [List.map_cons, invertOp, applyOps]
        rw [ih2]
        simp only [Option.map_some', Option.some_inj]
        have hta := List.take_append_drop old.length items
        rw [htake] at hta
        exact hta
      · exact absurd h (by simp)
    | changeAnnotations add a n =>
      simp only [applyOps] at h
      split at h
      · next hle =>
        cases hseg : annotateSeg add a (items.take n) with
        | none => rw [hseg] at h; exact absurd h (by simp)
        | some seg =>
          rw [hseg] at h
          cases hrec : applyOps ops (items.drop n) with
          | none => rw [hrec] at h; exact absurd h (by simp)
          | some r =>
            rw [hrec] at h
            simp only [Option.map_some', Option.some_inj] at h
            subst h
            have ih2 := ih (items.drop n) r (dataWF_drop items n hwf) hrec
            have hseglen : seg.length = n := by
              rw [annotateSeg_length add a (items.take n) seg hseg, List.length_take]
              omega
            have hseginv := annotateSeg_invert add a (items.take n) seg
              (dataWF_take items n hwf) hseg
            simp only [List.map_cons, invertOp, applyOps]
            rw [if_pos (by rw [List.length_append, hseglen]; omega)]
            have htake : (seg ++ r).take n = seg := by
              rw [← hseglen]
              exact List.take_left _ _
            have hdrop : (seg ++ r).drop n = r := by
              rw [← hseglen]
              exact List.drop_left _ _
            rw [htake, hdrop, hseginv, ih2]
            simp [List.take_append_drop]
      · exact absurd h (by simp)
    | changeAttributes k oldV newV =>
      cases items with
      | nil =>
        simp only [applyOps] at h
        exact absurd h (by simp)
      | cons it rest =>
        cases it with
        | elemClose tag =>
          simp only [applyOps] at h
          exact absurd h (by simp)
        | content c anns =>
          simp only [applyOps] at h
          exact absurd h (by simp)
        | elemOpen tag attrs =>
          simp only [applyOps] at h
          split at h
          · next hlook =>
            cases hrec : applyOps ops rest with
            | none => rw [hrec] at h; exact absurd h (by simp)
            | some r =>
              rw [hrec] at h
              simp only [Option.map_some', Option.some_inj] at h
              subst h
              have ih2 := ih rest r
                (fun x hx => hwf x (List.mem_cons_of_mem _ hx)) hrec
              have hnodup : (attrs.map Prod.fst).Nodup :=
                hwf (LinItem.elemOpen tag attrs) (List.mem_cons_self _ _)
              simp only [List.map_cons, invertOp, applyOps]
              rw [if_pos (attrLookup_attrSet k oldV newV attrs hlook)]
              rw [ih2]
              simp only [Option.map_some', Option.some_inj]
              rw [attrSet_attrSet_cancel k oldV newV attrs hnodup hlook]
          · exact absurd h (by simp)

/-- C7: transaction invertibility — for every transaction applicable to a
well-formed document state, the inverse transaction (insert and remove
swapped, annotation additions and removals swapped) applied to the result
restores the original document state. -/
theorem transaction_invertible (t : Transaction) (d d2 : Document)
    (hwf : dataWF d.data) (h : applyTx t d = some d2) :
    applyTx t.invert d2 = some d := by
  simp only [applyTx] at h
  cases hops : applyOps t.operations d.data with
  | none => rw [hops] at h; exact absurd h (by simp)
  | some items2 =>
    rw [hops] at h
    simp only [Option.map_some', Option.some_inj] at h
    subst h
    simp only [applyTx, Transaction.invert]
    rw [applyOps_invert t.operations d.data items2 hwf hops]
    rfl

/-- Witness for C7: inserting one character into the empty document and
applying the inverse (a remove of that character) restores the empty
document. -/
theorem transaction_invertible_witness :
    applyTx (Transaction.mk [Op.insert [LinItem.content 'a' []]]) ⟨[]⟩ =
      some ⟨[LinItem.content 'a' []]⟩ ∧
    applyTx (Transaction.mk [Op.insert [LinItem.content 'a' []]]).invert
      ⟨[LinItem.content 'a' []]⟩ = some ⟨[]⟩ := by
  have hwf : dataWF ([] : List LinItem) := by
    intro it hit
    exact absurd hit (List.not_mem_nil it)
  exact ⟨rfl, transaction_invertible (Transaction.mk [Op.insert [LinItem.content 'a' []]])
    ⟨[]⟩ ⟨[LinItem.content 'a' []]⟩ hwf rfl⟩
